import Mathlib

/-!
Verification development for the web-ifc raw-line decoding subsystem.

The embedding models:
  * the external token source (`IfcLoader`) as an immutable typed token list
    plus an explicit cursor position (the only loader state the decoder
    mutates is the cursor, via `GetTokenType`, `StepBack` and the payload
    accessors);
  * the value model `IfcSimpleValueVariant` / `IfcArgument` from
    `src/cpp/web-ifc/parsing/ifc-api.h`;
  * `ReadValue`, `GetArgs`, `GetRawLineData`, `GetRawLinesData` from the
    unnamed implementation file;
  * the debug string-building `ReadValue`/`GetArgs` pair from
    `src/cpp/test/cpp-ifc-test.cpp`.

C++ `double` payloads are carried opaquely by `Rat`: the decoder only moves
them from token to tree unchanged, so any carrier with decidable equality is
faithful for the properties below.
-/

/-- Modelled from the spec: the token-kind classification of the external
tokenizer (`webifc::parsing::IfcTokenType`, declared outside the sources
under study).  The constructors are exactly the kinds the decoder
dispatches on. -/
inductive IfcTokenType where
  | UNKNOWN
  | STRING
  | LABEL
  | ENUM
  | REAL
  | REF
  | EMPTY
  | SET_BEGIN
  | SET_END
  | LINE_END
  | INTEGER
deriving DecidableEq, Repr

/-- Modelled from the spec: the numeric value of the C++ enumerator, used by
the decoder's `static_cast<long>(t)` when it stores the token kind under the
`"type"` key of an object argument. -/
def IfcTokenType.toLong : IfcTokenType → Int
  | .UNKNOWN => 0
  | .STRING => 1
  | .LABEL => 2
  | .ENUM => 3
  | .REAL => 4
  | .REF => 5
  | .EMPTY => 6
  | .SET_BEGIN => 7
  | .SET_END => 8
  | .LINE_END => 9
  | .INTEGER => 10

/-- One token of the external token stream: its kind together with the
payload the matching accessor would return.  `strTok` carries the decoded
string payload (`GetDecodedStringArgument`); `enumTok` and `labelTok` carry
the raw string payload (`GetStringArgument`). -/
inductive IfcToken where
  | unknown
  | strTok (s : String)
  | labelTok (s : String)
  | enumTok (s : String)
  | realTok (d : Rat)
  | refTok (r : Nat)
  | emptyTok
  | setBegin
  | setEnd
  | lineEnd
  | intTok (n : Int)
deriving DecidableEq, Repr

/-- The token kind `GetTokenType` reports for a token. -/
def IfcToken.ttype : IfcToken → IfcTokenType
  | .unknown => .UNKNOWN
  | .strTok _ => .STRING
  | .labelTok _ => .LABEL
  | .enumTok _ => .ENUM
  | .realTok _ => .REAL
  | .refTok _ => .REF
  | .emptyTok => .EMPTY
  | .setBegin => .SET_BEGIN
  | .setEnd => .SET_END
  | .lineEnd => .LINE_END
  | .intTok _ => .INTEGER

/-- Modelled from the spec: the read-only part of `webifc::parsing::IfcLoader`
visible to the code under study — the token tape and the record-positioning
queries `IsValidExpressID`, `GetLineType` and `MoveToArgumentOffset(id, 0)`
(the latter as the tape position `argOffset id` it seeks to).  The cursor is
threaded separately since it is the only loader state the decoder mutates. -/
structure IfcModel where
  tokens : List IfcToken
  validID : Nat → Bool
  lineTypeOf : Nat → Nat
  argOffset : Nat → Nat

/-- The token under the cursor (`unknown` past the end; the decoder only
reads it behind an `IsAtEnd` guard or immediately after a `StepBack`). -/
def tokGet (m : IfcModel) (p : Nat) : IfcToken :=
  m.tokens.getD p .unknown

/-- Loader `IsAtEnd`. -/
def IsAtEnd (m : IfcModel) (p : Nat) : Bool :=
  decide (m.tokens.length ≤ p)

/-- Loader `GetTokenType`: classify the token under the cursor and advance
past it. -/
def GetTokenType (m : IfcModel) (p : Nat) : IfcTokenType × Nat :=
  ((tokGet m p).ttype, p + 1)

/-- Loader `GetStringArgument`: raw string payload of the token under the
cursor, advancing past it. -/
def GetStringArgument (m : IfcModel) (p : Nat) : String × Nat :=
  (match tokGet m p with
   | .labelTok s => s
   | .enumTok s => s
   | .strTok s => s
   | _ => "", p + 1)

/-- Loader `GetDecodedStringArgument`: decoded string payload, advancing. -/
def GetDecodedStringArgument (m : IfcModel) (p : Nat) : String × Nat :=
  (match tokGet m p with
   | .strTok s => s
   | _ => "", p + 1)

/-- Loader `GetDoubleArgument`, advancing. -/
def GetDoubleArgument (m : IfcModel) (p : Nat) : Rat × Nat :=
  (match tokGet m p with
   | .realTok d => d
   | _ => 0, p + 1)

/-- Loader `GetIntArgument`, advancing. -/
def GetIntArgument (m : IfcModel) (p : Nat) : Int × Nat :=
  (match tokGet m p with
   | .intTok n => n
   | _ => 0, p + 1)

/-- Loader `GetRefArgument`, advancing. -/
def GetRefArgument (m : IfcModel) (p : Nat) : Nat × Nat :=
  (match tokGet m p with
   | .refTok r => r
   | _ => 0, p + 1)

/-- The variant `IfcSimpleValueVariant` of `ifc-api.h`:
`std::variant<std::monostate, std::string, bool, long, uint32_t, double>`. -/
inductive IfcSimpleValueVariant where
  | monostate
  | str (s : String)
  | bool (b : Bool)
  | long (n : Int)
  | uint32 (n : Nat)
  | double (d : Rat)
deriving DecidableEq, Repr

/-- The recursive `IfcArgument` of `ifc-api.h`: a variant of a simple value,
an `IfcArgumentList` (`std::vector<IfcArgument>`) or an `IfcArgumentObject`
(`std::unordered_map<std::string, IfcArgument>`, modelled as the association
list of its insertions — only the key set and the per-key bindings are
observable). -/
inductive IfcArgument where
  | simple (v : IfcSimpleValueVariant)
  | list (xs : List IfcArgument)
  | object (entries : List (String × IfcArgument))
deriving Repr

/-- Alias matching `using IfcArgumentList = std::vector<IfcArgument>`. -/
abbrev IfcArgumentList := List IfcArgument

/-- The relevant part of `webifc::manager::ModelManager`: the model-open
predicate and the schema manager's `IfcTypeToTypeCode` resolver (both
external collaborators). -/
structure ModelManager where
  isModelOpen : Int → Bool
  ifcTypeToTypeCode : String → Nat

/-- The switch body of the static `ReadValue` of the implementation file,
run against a (non-null) loader: dispatch on the token type and read the
matching payload.  `ENUM` maps exactly "T"/"F"/"U" to true/false/null and
stores any other enumeration payload verbatim as text; the default case
returns the null scalar without touching the cursor. -/
def ReadValueAt (m : IfcModel) (p : Nat) (t : IfcTokenType) :
    IfcSimpleValueVariant × Nat :=
  match t with
  | .STRING =>
      let r := GetDecodedStringArgument m p
      (.str r.1, r.2)
  | .ENUM =>
      let r := GetStringArgument m p
      if r.1 = "T" then (.bool true, r.2)
      else if r.1 = "F" then (.bool false, r.2)
      else if r.1 = "U" then (.monostate, r.2)
      else (.str r.1, r.2)
  | .REAL =>
      let r := GetDoubleArgument m p
      (.double r.1, r.2)
  | .INTEGER =>
      let r := GetIntArgument m p
      (.long r.1, r.2)
  | .REF =>
      let r := GetRefArgument m p
      (.uint32 r.1, r.2)
  | _ => (.monostate, p)

/-- The static `ReadValue(IfcLoader* loader, IfcTokenType t)` of the
implementation file.  The loader pointer is modelled as an `Option` of a
loader-and-cursor pair; a null pointer short-circuits to the null scalar
(`std::monostate`) before any dereference. -/
def ReadValue (loader : Option (IfcModel × Nat)) (t : IfcTokenType) :
    IfcSimpleValueVariant × Option (IfcModel × Nat) :=
  match loader with
  | none => (.monostate, none)
  | some (m, p) =>
      let r := ReadValueAt m p t
      (r.1, some (m, r.2))

/-- Fuel-indexed embedding of `GetArgs(IfcLoader* loader, ModelManager&)`.
The C++ recursion carries no bound; the fuel only makes the definition
total in Lean and every theorem below either holds for all fuel or is
stated with fuel that provably suffices.  Each branch mirrors the C++
switch: terminators end the current call consuming the terminator;
`EMPTY` appends the null scalar; `SET_BEGIN` recurses and wraps a list;
`LABEL` steps back, reads the label name, resolves its type code, consumes
the following token (the value list's opening parenthesis) and builds the
three-key object; scalar kinds step back and go through `ReadValue`;
anything else is skipped silently. -/
def GetArgsF (mgr : ModelManager) : Nat → IfcModel → Nat → IfcArgumentList × Nat
  | 0, _, p => ([], p)
  | fuel + 1, m, p =>
    if IsAtEnd m p then ([], p)
    else
      match tokGet m p with
      | .lineEnd => ([], p + 1)
      | .setEnd => ([], p + 1)
      | .emptyTok =>
          let r := GetArgsF mgr fuel m (p + 1)
          (.simple .monostate :: r.1, r.2)
      | .setBegin =>
          let inner := GetArgsF mgr fuel m (p + 1)
          let rest := GetArgsF mgr fuel m inner.2
          (.list inner.1 :: rest.1, rest.2)
      | .labelTok _ =>
          -- loader->StepBack(); GetStringArgument() re-reads the label token
          let s := GetStringArgument m p
          let typeCode := mgr.ifcTypeToTypeCode s.1
          -- loader->GetTokenType(): consume the set-open token
          let p2 := s.2 + 1
          let inner := GetArgsF mgr fuel m p2
          let obj : List (String × IfcArgument) :=
            [("type", .simple (.long (IfcTokenType.toLong .LABEL))),
             ("typecode", .simple (.uint32 typeCode)),
             ("value", .list inner.1)]
          let rest := GetArgsF mgr fuel m inner.2
          (.object obj :: rest.1, rest.2)
      | .strTok _ =>
          -- loader->StepBack(); ReadValue(loader, t) with the same loader
          let r := ReadValueAt m p .STRING
          let rest := GetArgsF mgr fuel m r.2
          (.simple r.1 :: rest.1, rest.2)
      | .enumTok _ =>
          let r := ReadValueAt m p .ENUM
          let rest := GetArgsF mgr fuel m r.2
          (.simple r.1 :: rest.1, rest.2)
      | .realTok _ =>
          let r := ReadValueAt m p .REAL
          let rest := GetArgsF mgr fuel m r.2
          (.simple r.1 :: rest.1, rest.2)
      | .intTok _ =>
          let r := ReadValueAt m p .INTEGER
          let rest := GetArgsF mgr fuel m r.2
          (.simple r.1 :: rest.1, rest.2)
      | .refTok _ =>
          let r := ReadValueAt m p .REF
          let rest := GetArgsF mgr fuel m r.2
          (.simple r.1 :: rest.1, rest.2)
      | .unknown =>
          -- default: ignore the token and continue the loop
          GetArgsF mgr fuel m (p + 1)

/-- `GetArgs` run with fuel that always suffices: every loop iteration and
recursive call strictly advances the cursor, so tape length plus one steps
bound any run that terminates in the C++ sense. -/
def GetArgs (mgr : ModelManager) (m : IfcModel) (p : Nat) :
    IfcArgumentList × Nat :=
  GetArgsF mgr (m.tokens.length + 1) m p

/-- The `IfcRawLine` record of `ifc-api.h`: optional id, optional type code
and an `IfcArgument` payload. -/
structure IfcRawLine where
  ID : Option Nat
  type : Option Nat
  arguments : IfcArgument

/-- The `IfcRawLine()` default constructor: `ID` and `type` are
`std::nullopt` and `arguments` holds `std::monostate` (a null scalar, not a
list). -/
def IfcRawLine.empty : IfcRawLine :=
  ⟨none, none, .simple .monostate⟩

/-- `GetRawLineData(loader, modelID, manager, expressID)`: the three guard
clauses return the default-constructed record; otherwise seek to the
record's argument section, decode, and package id, line type and the decoded
argument list (wrapped by the `IfcArgument(IfcArgumentList)` constructor). -/
def GetRawLineData (m : IfcModel) (modelID : Int) (mgr : ModelManager)
    (expressID : Nat) (p : Nat) : IfcRawLine × Nat :=
  if ¬ mgr.isModelOpen modelID then (IfcRawLine.empty, p)
  else if ¬ m.validID expressID then (IfcRawLine.empty, p)
  else
    let lineType := m.lineTypeOf expressID
    if lineType = 0 then (IfcRawLine.empty, p)
    else
      -- loader->MoveToArgumentOffset(expressID, 0)
      let p0 := m.argOffset expressID
      let r := GetArgs mgr m p0
      (⟨some expressID, some lineType, .list r.1⟩, r.2)

/-- `GetRawLinesData(loader, modelID, manager, expressIDs)`: push one
`GetRawLineData` result per requested id, in order, threading the shared
loader cursor. -/
def GetRawLinesData (m : IfcModel) (modelID : Int) (mgr : ModelManager)
    (expressIDs : List Nat) (p : Nat) : List IfcRawLine × Nat :=
  match expressIDs with
  | [] => ([], p)
  | i :: rest =>
      let r := GetRawLineData m modelID mgr i p
      let rs := GetRawLinesData m modelID mgr rest r.2
      (r.1 :: rs.1, rs.2)

/-- The `ReadValue(IfcLoader&, IfcTokenType)` of the test driver
`cpp-ifc-test.cpp` (a distinct overload producing a string): STRING uses the
decoded payload, ENUM the raw payload, REAL its textual rendering
(`GetDoubleArgumentAsString`, modelled as the payload's string form),
INTEGER and REF their decimal renderings; the default case reports an empty
string without touching the cursor. -/
def ReadValueStr (m : IfcModel) (p : Nat) (t : IfcTokenType) : String × Nat :=
  match t with
  | .STRING => GetDecodedStringArgument m p
  | .ENUM => GetStringArgument m p
  | .REAL =>
      let r := GetDoubleArgument m p
      (toString r.1, r.2)
  | .INTEGER =>
      let r := GetIntArgument m p
      (toString r.1, r.2)
  | .REF =>
      let r := GetRefArgument m p
      (toString r.1, r.2)
  | _ => ("", p)

/-- Fuel-indexed embedding of the test driver's
`GetArgs(IfcLoader&, bool inObject, bool inList)` which renders a debug
string.  Faithful details: both terminators end the call; `LABEL` reads the
name (discarding it), consumes the set-open token and recurses with
`inObject = true`; in the scalar branch the C++ declares a second local
`obj` shadowing the outer one inside the `else`, so the value read by
`ReadValue` is appended to the output only when `inObject` is true — the
outer (empty) `obj` is what reaches `arguments` otherwise. -/
def GetArgsStrF : Nat → IfcModel → Bool → Bool → Nat → String × Nat
  | 0, _, _, _, p => ("", p)
  | fuel + 1, m, inObject, inList, p =>
    if IsAtEnd m p then ("", p)
    else
      match tokGet m p with
      | .lineEnd => ("", p + 1)
      | .setEnd => ("", p + 1)
      | .emptyTok =>
          let r := GetArgsStrF fuel m inObject inList (p + 1)
          (" Empty " ++ r.1, r.2)
      | .setBegin =>
          let inner := GetArgsStrF fuel m false true (p + 1)
          let rest := GetArgsStrF fuel m inObject inList inner.2
          (inner.1 ++ rest.1, rest.2)
      | .labelTok _ =>
          let s := GetStringArgument m p
          let p2 := s.2 + 1
          let inner := GetArgsStrF fuel m true false p2
          let obj := " type: LABEL " ++ " value " ++ inner.1 ++ " "
          let rest := GetArgsStrF fuel m inObject inList inner.2
          (obj ++ rest.1, rest.2)
      | .strTok _ =>
          let r := ReadValueStr m p .STRING
          let piece := if inObject then r.1 else ""
          let rest := GetArgsStrF fuel m inObject inList r.2
          (piece ++ rest.1, rest.2)
      | .enumTok _ =>
          let r := ReadValueStr m p .ENUM
          let piece := if inObject then r.1 else ""
          let rest := GetArgsStrF fuel m inObject inList r.2
          (piece ++ rest.1, rest.2)
      | .realTok _ =>
          let r := ReadValueStr m p .REAL
          let piece := if inObject then r.1 else ""
          let rest := GetArgsStrF fuel m inObject inList r.2
          (piece ++ rest.1, rest.2)
      | .intTok _ =>
          let r := ReadValueStr m p .INTEGER
          let piece := if inObject then r.1 else ""
          let rest := GetArgsStrF fuel m inObject inList r.2
          (piece ++ rest.1, rest.2)
      | .refTok _ =>
          let r := ReadValueStr m p .REF
          let piece := if inObject then r.1 else ""
          let rest := GetArgsStrF fuel m inObject inList r.2
          (piece ++ rest.1, rest.2)
      | .unknown =>
          GetArgsStrF fuel m inObject inList (p + 1)

/-- The driver's `GetArgs` with defaulted flags and sufficient fuel. -/
def GetArgsStr (m : IfcModel) (p : Nat) : String × Nat :=
  GetArgsStrF (m.tokens.length + 1) m false false p

/-! Specification-side grammar of well-formed argument sections, used to
state the decoder-correctness theorems: a `PVal` is one source-level
argument, `flatPVs` renders a sequence of them to the token stream exactly
as the STEP text would tokenize, and `decodePV` is the tree the decoder is
expected to build for each. -/

/-- One well-formed source-level argument. -/
inductive PVal where
  | pempty
  | pstr (s : String)
  | penum (s : String)
  | preal (d : Rat)
  | pint (n : Int)
  | pref (r : Nat)
  | plist (xs : List PVal)
  | plabel (name : String) (xs : List PVal)

mutual

/-- Token rendering of one argument. -/
def flatPV : PVal → List IfcToken
  | .pempty => [.emptyTok]
  | .pstr s => [.strTok s]
  | .penum s => [.enumTok s]
  | .preal d => [.realTok d]
  | .pint n => [.intTok n]
  | .pref r => [.refTok r]
  | .plist xs => .setBegin :: (flatPVs xs ++ [.setEnd])
  | .plabel name xs => .labelTok name :: .setBegin :: (flatPVs xs ++ [.setEnd])

/-- Token rendering of an argument sequence, in source order. -/
def flatPVs : List PVal → List IfcToken
  | [] => []
  | a :: t => flatPV a ++ flatPVs t

end

mutual

/-- The argument tree the decoder builds for one source-level argument. -/
def decodePV (mgr : ModelManager) : PVal → IfcArgument
  | .pempty => .simple .monostate
  | .pstr s => .simple (.str s)
  | .penum s =>
      .simple (if s = "T" then .bool true
               else if s = "F" then .bool false
               else if s = "U" then .monostate
               else .str s)
  | .preal d => .simple (.double d)
  | .pint n => .simple (.long n)
  | .pref r => .simple (.uint32 r)
  | .plist xs => .list (decodePVs mgr xs)
  | .plabel name xs =>
      .object
        [("type", .simple (.long (IfcTokenType.toLong .LABEL))),
         ("typecode", .simple (.uint32 (mgr.ifcTypeToTypeCode name))),
         ("value", .list (decodePVs mgr xs))]

/-- Expected trees for an argument sequence, in source order. -/
def decodePVs (mgr : ModelManager) : List PVal → List IfcArgument
  | [] => []
  | a :: t => decodePV mgr a :: decodePVs mgr t

end

/-- Shape test: is this argument a list? -/
def isList : IfcArgument → Bool
  | .list _ => true
  | _ => false

/-- The object-shape invariant of the claim on typed labels: the key set is
exactly `type`, `typecode`, `value` (in insertion order) and the binding of
`value` is a list. -/
def objShapeOk (kvs : List (String × IfcArgument)) : Bool :=
  (kvs.map Prod.fst == ["type", "typecode", "value"]) &&
    (match kvs.lookup "value" with
     | some a => isList a
     | none => false)

mutual

/-- Every object argument reachable inside this argument satisfies
`objShapeOk`. -/
def objArgsOk : IfcArgument → Bool
  | .simple _ => true
  | .list xs => objArgsOkList xs
  | .object kvs => objShapeOk kvs && objArgsOkKVs kvs

/-- Every object argument reachable inside this argument list satisfies
`objShapeOk`. -/
def objArgsOkList : List IfcArgument → Bool
  | [] => true
  | a :: t => objArgsOk a && objArgsOkList t

/-- Every object argument reachable inside these bindings satisfies
`objShapeOk`. -/
def objArgsOkKVs : List (String × IfcArgument) → Bool
  | [] => true
  | kv :: t => objArgsOk kv.2 && objArgsOkKVs t

end

/-- Nested pure lists of depth `d + 1`: `pnest 0` is the empty list. -/
def pnest : Nat → PVal
  | 0 => .plist []
  | d + 1 => .plist [pnest d]

/-- The tree `pnest d` decodes to. -/
def nestArg : Nat → IfcArgument
  | 0 => .list []
  | d + 1 => .list [nestArg d]

/-- A loader whose tape is exactly the given token list, with every record
id valid, of line type 7, and argument section starting at position 0. -/
def mkModel (ts : List IfcToken) : IfcModel :=
  ⟨ts, fun _ => true, fun _ => 7, fun _ => 0⟩

/-- A loader whose nested-list record of depth `d + 1` fills the whole
tape. -/
def nestModel (d : Nat) : IfcModel :=
  mkModel (flatPVs [pnest d] ++ [.lineEnd])

/-- A manager with every model open and a fixed type-code resolver. -/
def mgrOpen : ModelManager :=
  ⟨fun _ => true, fun s => s.length⟩

/-- A manager with every model closed. -/
def mgrClosed : ModelManager :=
  ⟨fun _ => false, fun s => s.length⟩

/-- A loader with an empty tape that rejects every record id. -/
def mInvalid : IfcModel :=
  ⟨[], fun _ => false, fun _ => 0, fun _ => 0⟩

/-- Tape of a record with an unterminated nested list: LIST-BEGIN and an
integer, then the stream simply ends. -/
def mTrunc : IfcModel :=
  mkModel [.setBegin, .intTok 1]

/-- The same record with its nested list and the record properly
terminated. -/
def mTermd : IfcModel :=
  mkModel [.setBegin, .intTok 1, .setEnd, .lineEnd]

/-- Tape ending in a LIST-END terminator. -/
def mEndsSet : IfcModel :=
  mkModel [.intTok 1, .setEnd]

/-- Tape ending in a RECORD-END terminator. -/
def mEndsLine : IfcModel :=
  mkModel [.intTok 1, .lineEnd]

/-- Tape with one top-level integer argument then RECORD-END. -/
def mOneInt : IfcModel :=
  mkModel [.intTok 5, .lineEnd]

/-- Tape with no arguments: just RECORD-END. -/
def mNoArgs : IfcModel :=
  mkModel [.lineEnd]

/-- Shape of the unterminated remainder of a token stream: at least one
LIST-BEGIN with no matching terminator before the stream ends.  `last xs`
is an unmatched LIST-BEGIN whose content `xs` is well-formed and then the
stream simply ends; `more xs t` is an unmatched LIST-BEGIN whose content is
`xs` followed by a further unmatched LIST-BEGIN described by `t`. -/
inductive OpenTail where
  | last (xs : List PVal)
  | more (xs : List PVal) (t : OpenTail)

/-- Token rendering of an unterminated open tail. -/
def flatOpen : OpenTail → List IfcToken
  | .last xs => IfcToken.setBegin :: flatPVs xs
  | .more xs t => IfcToken.setBegin :: (flatPVs xs ++ flatOpen t)

/-- The argument the decoder accumulates for an unterminated open tail:
each unmatched LIST-BEGIN still yields a List holding whatever was decoded
before the stream ran out. -/
def decodeOpen (mgr : ModelManager) : OpenTail → IfcArgument
  | .last xs => .list (decodePVs mgr xs)
  | .more xs t => .list (decodePVs mgr xs ++ [decodeOpen mgr t])

/-- The well-formed argument that results from closing every unmatched
LIST-BEGIN of the tail: the terminated counterpart of the truncated
stream. -/
def toPVal : OpenTail → PVal
  | .last xs => .plist xs
  | .more xs t => .plist (xs ++ [toPVal t])

/-- Token rendering of an optional unterminated tail (empty when the stream
ends cleanly after the well-formed arguments). -/
def openEnding : Option OpenTail → List IfcToken
  | none => []
  | some t => flatOpen t

/-- Arguments accumulated for an optional unterminated tail. -/
def openDecoded (mgr : ModelManager) : Option OpenTail → List IfcArgument
  | none => []
  | some t => [decodeOpen mgr t]

/-! Helper lemmas about the tape, the cursor and the expectation
functions. -/

theorem drop_cons :
    ∀ (p : Nat) (l : List IfcToken) (x : IfcToken) (t : List IfcToken),
      l.drop p = x :: t →
      p < l.length ∧ l.getD p .unknown = x ∧ l.drop (p + 1) = t := by
  intro p
  induction p with
  | zero =>
      intro l x t h
      cases l with
      | nil => simp at h
      | cons a as =>
          simp only [List.drop_zero] at h
          cases h
          exact ⟨by simp, rfl, by simp⟩
  | succ n ih =>
      intro l x t h
      cases l with
      | nil => simp at h
      | cons a as =>
          have h' : as.drop n = x :: t := by simpa using h
          obtain ⟨h1, h2, h3⟩ := ih as x t h'
          exact ⟨by simpa using Nat.succ_lt_succ h1, by simpa using h2,
            by simpa using h3⟩

theorem tokGet_of_drop {m : IfcModel} {p : Nat} {x : IfcToken}
    {t : List IfcToken} (h : m.tokens.drop p = x :: t) :
    p < m.tokens.length ∧ tokGet m p = x ∧ m.tokens.drop (p + 1) = t := by
  obtain ⟨h1, h2, h3⟩ := drop_cons p m.tokens x t h
  exact ⟨h1, h2, h3⟩

theorem drop_add (l : List IfcToken) (p k : Nat) :
    l.drop (p + k) = (l.drop p).drop k := by
  rw [List.drop_drop, Nat.add_comm]

theorem drop_append_cons (A : List IfcToken) (x : IfcToken)
    (R : List IfcToken) : (A ++ x :: R).drop (A.length + 1) = R := by
  rw [drop_add, List.drop_left]
  rfl

theorem notAtEnd_of_lt {m : IfcModel} {p : Nat} (h : p < m.tokens.length) :
    IsAtEnd m p = false := by
  simp only [IsAtEnd, decide_eq_false_iff_not, not_le]
  exact h

theorem decodePVs_length (mgr : ModelManager) :
    ∀ args : List PVal, (decodePVs mgr args).length = args.length := by
  intro args
  induction args with
  | nil => rfl
  | cons a t ih => simp [decodePVs, ih]

theorem ReadValueAt_string {m : IfcModel} {p : Nat} {s : String}
    (h : tokGet m p = .strTok s) :
    ReadValueAt m p .STRING = (.str s, p + 1) := by
  simp [ReadValueAt, GetDecodedStringArgument, h]

theorem ReadValueAt_enum {m : IfcModel} {p : Nat} {s : String}
    (h : tokGet m p = .enumTok s) :
    ReadValueAt m p .ENUM =
      ((if s = "T" then .bool true
        else if s = "F" then .bool false
        else if s = "U" then .monostate
        else .str s), p + 1) := by
  simp only [ReadValueAt, GetStringArgument, h]
  split_ifs <;> rfl

theorem ReadValueAt_real {m : IfcModel} {p : Nat} {d : Rat}
    (h : tokGet m p = .realTok d) :
    ReadValueAt m p .REAL = (.double d, p + 1) := by
  simp [ReadValueAt, GetDoubleArgument, h]

theorem ReadValueAt_int {m : IfcModel} {p : Nat} {n : Int}
    (h : tokGet m p = .intTok n) :
    ReadValueAt m p .INTEGER = (.long n, p + 1) := by
  simp [ReadValueAt, GetIntArgument, h]

theorem ReadValueAt_ref {m : IfcModel} {p : Nat} {r : Nat}
    (h : tokGet m p = .refTok r) :
    ReadValueAt m p .REF = (.uint32 r, p + 1) := by
  simp [ReadValueAt, GetRefArgument, h]

/-- C10: calling `ReadValue` with a null loader pointer returns the null
scalar (`std::monostate`) without dereferencing the pointer, for every
token type; the null-loader branch makes the function total in its loader
argument. -/
theorem readValue_null_loader (t : IfcTokenType) :
    ReadValue none t = (.monostate, none) :=
  rfl

/-- C3: for an ENUMERATION token the scalar reader maps payload exactly
"T" to boolean true, exactly "F" to boolean false, exactly "U" to the null
scalar, and any other payload verbatim to text, consuming the token. -/
theorem readValue_enum_mapping (m : IfcModel) (p : Nat) (s : String)
    (h : tokGet m p = .enumTok s) :
    ReadValue (some (m, p)) .ENUM =
      ((if s = "T" then .bool true
        else if s = "F" then .bool false
        else if s = "U" then .monostate
        else .str s), some (m, p + 1)) := by
  simp [ReadValue, ReadValueAt_enum h]

theorem readValue_enum_mapping_witness :
    tokGet (mkModel [.enumTok "T"]) 0 = .enumTok "T" ∧
    ReadValue (some (mkModel [.enumTok "T"], 0)) .ENUM =
      (.bool true, some (mkModel [.enumTok "T"], 1)) := by
  refine ⟨rfl, ?_⟩
  have h := readValue_enum_mapping (mkModel [.enumTok "T"]) 0 "T" rfl
  simpa using h

/-- C1 (amended): for every invalid request — model not open, record id not
valid, or looked-up line type 0 — `GetRawLineData` returns the
default-constructed `IfcRawLine`: `ID` and `type` are both absent (there is
no stored type code 0) and `arguments` is the null scalar
`std::monostate` — not a list, so in particular never a populated one. -/
theorem getRawLineData_invalid (m : IfcModel) (modelID : Int)
    (mgr : ModelManager) (expressID : Nat) (p : Nat)
    (h : mgr.isModelOpen modelID = false ∨ m.validID expressID = false ∨
      m.lineTypeOf expressID = 0) :
    (GetRawLineData m modelID mgr expressID p).1 = IfcRawLine.empty ∧
    (GetRawLineData m modelID mgr expressID p).1.arguments =
      .simple .monostate ∧
    isList (GetRawLineData m modelID mgr expressID p).1.arguments = false ∧
    (GetRawLineData m modelID mgr expressID p).1.type = none := by
  have hmain : (GetRawLineData m modelID mgr expressID p).1 =
      IfcRawLine.empty := by
    unfold GetRawLineData
    rcases h with h | h | h
    · simp [h]
    · by_cases ho : mgr.isModelOpen modelID <;> simp [h, ho]
    · by_cases ho : mgr.isModelOpen modelID <;>
        by_cases hv : m.validID expressID <;> simp [h, ho, hv]
  refine ⟨hmain, ?_, ?_, ?_⟩ <;> rw [hmain] <;> rfl

/-- C1 (counterexample to the claim as stated): on a concrete invalid
request the sentinel's type is not the code 0 (it is absent) and its
`arguments` is not a List at all. -/
theorem getRawLineData_invalid_counterexample :
    (GetRawLineData mInvalid 0 mgrClosed 1 0).1.type ≠ some 0 ∧
    isList (GetRawLineData mInvalid 0 mgrClosed 1 0).1.arguments = false := by
  constructor
  · intro hc
    have : (none : Option Nat) = some 0 := hc
    exact Option.noConfusion this
  · rfl

/-- The record a `GetRawLineData` call returns does not depend on the
incoming cursor position: every early exit ignores it and the decoding path
first seeks to the record's argument offset. -/
theorem getRawLineData_fst_pos_indep (m : IfcModel) (modelID : Int)
    (mgr : ModelManager) (expressID : Nat) (p q : Nat) :
    (GetRawLineData m modelID mgr expressID p).1 =
      (GetRawLineData m modelID mgr expressID q).1 := by
  unfold GetRawLineData
  by_cases h1 : mgr.isModelOpen modelID <;>
    by_cases h2 : m.validID expressID <;>
    by_cases h3 : m.lineTypeOf expressID = 0 <;>
    simp [h1, h2, h3]

/-- C5: `GetRawLinesData` returns one record per requested identifier, in
input order, the i-th being exactly what `GetRawLineData` returns for the
i-th identifier from any cursor position — an invalid identifier anywhere
in the batch yields the sentinel at its own position without affecting the
others, and the batch never terminates early. -/
theorem getRawLinesData_batch (m : IfcModel) (modelID : Int)
    (mgr : ModelManager) (ids : List Nat) (p : Nat) :
    (GetRawLinesData m modelID mgr ids p).1 =
      ids.map (fun i => (GetRawLineData m modelID mgr i p).1) ∧
    (GetRawLinesData m modelID mgr ids p).1.length = ids.length := by
  have hmap : ∀ (l : List Nat) (q r : Nat),
      (GetRawLinesData m modelID mgr l q).1 =
        l.map (fun i => (GetRawLineData m modelID mgr i r).1) := by
    intro l
    induction l with
    | nil => intro q r; rfl
    | cons i rest ih =>
        intro q r
        simp only [GetRawLinesData, List.map]
        rw [getRawLineData_fst_pos_indep m modelID mgr i q r, ih _ r]
  refine ⟨hmap ids p p, ?_⟩
  rw [hmap ids p p, List.length_map]

/-- C7 (counterexample to the claim as stated): on the tape
`[LIST-BEGIN, INTEGER 1]`, whose list has no terminator before the stream
ends, the decode does not fail — it returns the silently truncated
populated argument list. -/
theorem getArgs_unterminated_counterexample :
    (GetArgs mgrOpen mTrunc 0).1 =
      [.list [.simple (.long 1)]] :=
  rfl

/-- C8 (counterexample to the claim as stated): a call ended by LIST-END
returns exactly the same result (argument list and cursor advance) as a
call ended by RECORD-END — the terminator that fired is not exposed to the
caller. -/
theorem getArgs_terminator_counterexample :
    GetArgs mgrOpen mEndsSet 0 = GetArgs mgrOpen mEndsLine 0 :=
  rfl

/-- C8 (amended): `GetArgs` does not expose which terminator ended the
call: whether the token under the cursor is LIST-END or RECORD-END, the
call returns the identical result — the empty continuation with the cursor
advanced past the terminator. -/
theorem getArgs_terminator_indistinguishable (f : Nat) (mgr : ModelManager)
    (m : IfcModel) (p : Nat) (hp : p < m.tokens.length)
    (h : tokGet m p = .setEnd ∨ tokGet m p = .lineEnd) :
    GetArgsF mgr (f + 1) m p = ([], p + 1) := by
  rcases h with h | h <;> simp [GetArgsF, notAtEnd_of_lt hp, h]

theorem getArgs_terminator_indistinguishable_witness :
    (0 < mNoArgs.tokens.length ∧ tokGet mNoArgs 0 = .lineEnd) ∧
    GetArgsF mgrOpen 1 mNoArgs 0 = ([], 1) :=
  ⟨⟨by decide, rfl⟩,
    getArgs_terminator_indistinguishable 0 mgrOpen mNoArgs 0 (by decide)
      (Or.inr rfl)⟩

/-- C9 (counterexample to the claim as stated): the tree decoder and the
debug string decoder do not agree on structure.  The string decoder's
scalar branch assigns the value read to a shadowed local and so drops
scalars outside object context: the records `(5);` and `();`-shaped tapes
render to the same string although their decoded trees differ. -/
theorem decoders_disagree_counterexample :
    (GetArgsStr mOneInt 0).1 = (GetArgsStr mNoArgs 0).1 ∧
    (GetArgs mgrOpen mOneInt 0).1 ≠ (GetArgs mgrOpen mNoArgs 0).1 := by
  refine ⟨rfl, ?_⟩
  have h1 : (GetArgs mgrOpen mOneInt 0).1 = [.simple (.long 5)] := rfl
  have h2 : (GetArgs mgrOpen mNoArgs 0).1 = [] := rfl
  rw [h1, h2]
  exact List.cons_ne_nil _ _

/-- Main decoder-correctness lemma: on a tape whose remainder renders a
well-formed argument sequence followed by a terminator, `GetArgsF` (with
sufficient fuel) returns exactly one decoded argument per source-level
argument, in source order, consuming the rendered tokens and the
terminator. -/
theorem GetArgsF_spec (mgr : ModelManager) :
    ∀ (f : Nat) (args : List PVal) (m : IfcModel) (p : Nat)
      (term : IfcToken) (suffix : List IfcToken),
      (term = IfcToken.setEnd ∨ term = IfcToken.lineEnd) →
      m.tokens.drop p = flatPVs args ++ term :: suffix →
      (flatPVs args).length + 1 ≤ f →
      GetArgsF mgr f m p =
        (decodePVs mgr args, p + (flatPVs args).length + 1) := by
  intro f
  induction f using Nat.strong_induction_on with
  | _ f IH =>
    intro args m p term suffix hterm hdrop hfuel
    obtain ⟨g, rfl⟩ : ∃ g, f = g + 1 := ⟨f - 1, by omega⟩
    cases args with
    | nil =>
        simp only [flatPVs, List.nil_append] at hdrop
        obtain ⟨hlt, htok, -⟩ := tokGet_of_drop hdrop
        rcases hterm with h | h <;> subst h <;>
          simp [GetArgsF, notAtEnd_of_lt hlt, htok, decodePVs, flatPVs]
    | cons a rest =>
      cases a with
      | pempty =>
          have hdrop' : m.tokens.drop p =
              .emptyTok :: (flatPVs rest ++ term :: suffix) := by
            simpa [flatPVs, flatPV] using hdrop
          obtain ⟨hlt, htok, hd1⟩ := tokGet_of_drop hdrop'
          have hlen : (flatPVs (PVal.pempty :: rest)).length =
              (flatPVs rest).length + 1 := by
            simp [flatPVs, flatPV]
          rw [hlen] at hfuel
          have hrest := IH g (by omega) rest m (p + 1) term suffix hterm hd1
            (by omega)
          have hstep : GetArgsF mgr (g + 1) m p =
              (.simple .monostate :: decodePVs mgr rest,
                p + 1 + (flatPVs rest).length + 1) := by
            simp [GetArgsF, notAtEnd_of_lt hlt, htok, hrest]
          rw [hstep]
          refine Prod.ext ?_ ?_
          · simp [decodePVs, decodePV]
          · simp only [hlen]
            omega
      | pstr s =>
          have hdrop' : m.tokens.drop p =
              .strTok s :: (flatPVs rest ++ term :: suffix) := by
            simpa [flatPVs, flatPV] using hdrop
          obtain ⟨hlt, htok, hd1⟩ := tokGet_of_drop hdrop'
          have hlen : (flatPVs (PVal.pstr s :: rest)).length =
              (flatPVs rest).length + 1 := by
            simp [flatPVs, flatPV]
          rw [hlen] at hfuel
          have hrest := IH g (by omega) rest m (p + 1) term suffix hterm hd1
            (by omega)
          have hstep : GetArgsF mgr (g + 1) m p =
              (.simple (.str s) :: decodePVs mgr rest,
                p + 1 + (flatPVs rest).length + 1) := by
            simp [GetArgsF, notAtEnd_of_lt hlt, htok, ReadValueAt_string htok,
              hrest]
          rw [hstep]
          refine Prod.ext ?_ ?_
          · simp [decodePVs, decodePV]
          · simp only [hlen]
            omega
      | penum s =>
          have hdrop' : m.tokens.drop p =
              .enumTok s :: (flatPVs rest ++ term :: suffix) := by
            simpa [flatPVs, flatPV] using hdrop
          obtain ⟨hlt, htok, hd1⟩ := tokGet_of_drop hdrop'
          have hlen : (flatPVs (PVal.penum s :: rest)).length =
              (flatPVs rest).length + 1 := by
            simp [flatPVs, flatPV]
          rw [hlen] at hfuel
          have hrest := IH g (by omega) rest m (p + 1) term suffix hterm hd1
            (by omega)
          have hstep : GetArgsF mgr (g + 1) m p =
              (.simple (if s = "T" then .bool true
                else if s = "F" then .bool false
                else if s = "U" then .monostate
                else .str s) :: decodePVs mgr rest,
                p + 1 + (flatPVs rest).length + 1) := by
            simp [GetArgsF, notAtEnd_of_lt hlt, htok, ReadValueAt_enum htok,
              hrest]
          rw [hstep]
          refine Prod.ext ?_ ?_
          · simp [decodePVs, decodePV]
          · simp only [hlen]
            omega
      | preal d =>
          have hdrop' : m.tokens.drop p =
              .realTok d :: (flatPVs rest ++ term :: suffix) := by
            simpa [flatPVs, flatPV] using hdrop
          obtain ⟨hlt, htok, hd1⟩ := tokGet_of_drop hdrop'
          have hlen : (flatPVs (PVal.preal d :: rest)).length =
              (flatPVs rest).length + 1 := by
            simp [flatPVs, flatPV]
          rw [hlen] at hfuel
          have hrest := IH g (by omega) rest m (p + 1) term suffix hterm hd1
            (by omega)
          have hstep : GetArgsF mgr (g + 1) m p =
              (.simple (.double d) :: decodePVs mgr rest,
                p + 1 + (flatPVs rest).length + 1) := by
            simp [GetArgsF, notAtEnd_of_lt hlt, htok, ReadValueAt_real htok,
              hrest]
          rw [hstep]
          refine Prod.ext ?_ ?_
          · simp [decodePVs, decodePV]
          · simp only [hlen]
            omega
      | pint n =>
          have hdrop' : m.tokens.drop p =
              .intTok n :: (flatPVs rest ++ term :: suffix) := by
            simpa [flatPVs, flatPV] using hdrop
          obtain ⟨hlt, htok, hd1⟩ := tokGet_of_drop hdrop'
          have hlen : (flatPVs (PVal.pint n :: rest)).length =
              (flatPVs rest).length + 1 := by
            simp [flatPVs, flatPV]
          rw [hlen] at hfuel
          have hrest := IH g (by omega) rest m (p + 1) term suffix hterm hd1
            (by omega)
          have hstep : GetArgsF mgr (g + 1) m p =
              (.simple (.long n) :: decodePVs mgr rest,
                p + 1 + (flatPVs rest).length + 1) := by
            simp [GetArgsF, notAtEnd_of_lt hlt, htok, ReadValueAt_int htok,
              hrest]
          rw [hstep]
          refine Prod.ext ?_ ?_
          · simp [decodePVs, decodePV]
          · simp only [hlen]
            omega
      | pref r =>
          have hdrop' : m.tokens.drop p =
              .refTok r :: (flatPVs rest ++ term :: suffix) := by
            simpa [flatPVs, flatPV] using hdrop
          obtain ⟨hlt, htok, hd1⟩ := tokGet_of_drop hdrop'
          have hlen : (flatPVs (PVal.pref r :: rest)).length =
              (flatPVs rest).length + 1 := by
            simp [flatPVs, flatPV]
          rw [hlen] at hfuel
          have hrest := IH g (by omega) rest m (p + 1) term suffix hterm hd1
            (by omega)
          have hstep : GetArgsF mgr (g + 1) m p =
              (.simple (.uint32 r) :: decodePVs mgr rest,
                p + 1 + (flatPVs rest).length + 1) := by
            simp [GetArgsF, notAtEnd_of_lt hlt, htok, ReadValueAt_ref htok,
              hrest]
          rw [hstep]
          refine Prod.ext ?_ ?_
          · simp [decodePVs, decodePV]
          · simp only [hlen]
            omega
      | plist xs =>
          have hdrop' : m.tokens.drop p =
              .setBegin :: (flatPVs xs ++
                .setEnd :: (flatPVs rest ++ term :: suffix)) := by
            simpa [flatPVs, flatPV, List.cons_append, List.append_assoc]
              using hdrop
          obtain ⟨hlt, htok, hd1⟩ := tokGet_of_drop hdrop'
          have hlen : (flatPVs (PVal.plist xs :: rest)).length =
              (flatPVs xs).length + (flatPVs rest).length + 2 := by
            simp [flatPVs, flatPV]
            omega
          rw [hlen] at hfuel
          have hinner := IH g (by omega) xs m (p + 1) .setEnd
            (flatPVs rest ++ term :: suffix) (Or.inl rfl) hd1 (by omega)
          have hd2 : m.tokens.drop (p + 1 + (flatPVs xs).length + 1) =
              flatPVs rest ++ term :: suffix := by
            have e : p + 1 + (flatPVs xs).length + 1 =
                (p + 1) + ((flatPVs xs).length + 1) := by omega
            rw [e, drop_add, hd1, drop_append_cons]
          have hrest := IH g (by omega) rest m
            (p + 1 + (flatPVs xs).length + 1) term suffix hterm hd2 (by omega)
          have hstep : GetArgsF mgr (g + 1) m p =
              (.list (decodePVs mgr xs) :: decodePVs mgr rest,
                p + 1 + (flatPVs xs).length + 1 + (flatPVs rest).length + 1) := by
            simp [GetArgsF, notAtEnd_of_lt hlt, htok, hinner, hrest]
          rw [hstep]
          refine Prod.ext ?_ ?_
          · simp [decodePVs, decodePV]
          · simp only [hlen]
            omega
      | plabel name xs =>
          have hdrop' : m.tokens.drop p =
              .labelTok name :: .setBegin :: (flatPVs xs ++
                .setEnd :: (flatPVs rest ++ term :: suffix)) := by
            simpa [flatPVs, flatPV, List.cons_append, List.append_assoc]
              using hdrop
          obtain ⟨hlt, htok, hd1⟩ := tokGet_of_drop hdrop'
          obtain ⟨-, -, hd2⟩ := tokGet_of_drop hd1
          have hstr : GetStringArgument m p = (name, p + 1) := by
            simp [GetStringArgument, htok]
          have hlen : (flatPVs (PVal.plabel name xs :: rest)).length =
              (flatPVs xs).length + (flatPVs rest).length + 3 := by
            simp [flatPVs, flatPV]
            omega
          rw [hlen] at hfuel
          have hinner := IH g (by omega) xs m (p + 1 + 1) .setEnd
            (flatPVs rest ++ term :: suffix) (Or.inl rfl) hd2 (by omega)
          have hd3 : m.tokens.drop (p + 1 + 1 + (flatPVs xs).length + 1) =
              flatPVs rest ++ term :: suffix := by
            have e : p + 1 + 1 + (flatPVs xs).length + 1 =
                (p + 1 + 1) + ((flatPVs xs).length + 1) := by omega
            rw [e, drop_add, hd2, drop_append_cons]
          have hrest := IH g (by omega) rest m
            (p + 1 + 1 + (flatPVs xs).length + 1) term suffix hterm hd3
            (by omega)
          have hstep : GetArgsF mgr (g + 1) m p =
              (.object
                  [("type", .simple (.long (IfcTokenType.toLong .LABEL))),
                   ("typecode",
                     .simple (.uint32 (mgr.ifcTypeToTypeCode name))),
                   ("value", .list (decodePVs mgr xs))] :: decodePVs mgr rest,
                p + 1 + 1 + (flatPVs xs).length + 1 +
                  (flatPVs rest).length + 1) := by
            simp [GetArgsF, notAtEnd_of_lt hlt, htok, hstr, hinner, hrest]
          rw [hstep]
          refine Prod.ext ?_ ?_
          · simp [decodePVs, decodePV]
          · simp only [hlen]
            omega

theorem ReadValueAt_enum_snd (m : IfcModel) (p : Nat) :
    (ReadValueAt m p .ENUM).2 = p + 1 := by
  simp only [ReadValueAt, GetStringArgument]
  split_ifs <;> rfl

/-- C2: for every valid record — model open, identifier valid, looked-up
line type non-zero — whose argument section renders a well-formed argument
sequence, `GetRawLineData` returns a record whose type code is positive,
whose id is the requested identifier, and whose `arguments` is a List
holding exactly one decoded Argument per top-level source argument, in
source order. -/
theorem getRawLineData_valid (m : IfcModel) (modelID : Int)
    (mgr : ModelManager) (expressID p : Nat) (args : List PVal)
    (suffix : List IfcToken)
    (hopen : mgr.isModelOpen modelID = true)
    (hvalid : m.validID expressID = true)
    (htype : m.lineTypeOf expressID ≠ 0)
    (htokens : m.tokens.drop (m.argOffset expressID) =
      flatPVs args ++ .lineEnd :: suffix) :
    (GetRawLineData m modelID mgr expressID p).1 =
      ⟨some expressID, some (m.lineTypeOf expressID),
        .list (decodePVs mgr args)⟩ ∧
    0 < m.lineTypeOf expressID ∧
    (decodePVs mgr args).length = args.length := by
  have hfuel : (flatPVs args).length + 1 ≤ m.tokens.length + 1 := by
    have hl := congrArg List.length htokens
    simp only [List.length_drop, List.length_append, List.length_cons] at hl
    omega
  have hargs := GetArgsF_spec mgr (m.tokens.length + 1) args m
    (m.argOffset expressID) .lineEnd suffix (Or.inr rfl) htokens hfuel
  refine ⟨?_, by omega, decodePVs_length mgr args⟩
  unfold GetRawLineData
  simp [hopen, hvalid, htype, GetArgs, hargs]

theorem getRawLineData_valid_witness :
    (mgrOpen.isModelOpen 0 = true ∧
      (mkModel [.intTok 3, .emptyTok, .lineEnd]).validID 5 = true ∧
      (mkModel [.intTok 3, .emptyTok, .lineEnd]).lineTypeOf 5 ≠ 0) ∧
    (GetRawLineData (mkModel [.intTok 3, .emptyTok, .lineEnd]) 0 mgrOpen
        5 0).1 =
      ⟨some 5, some 7, .list [.simple (.long 3), .simple .monostate]⟩ := by
  refine ⟨⟨rfl, rfl, by decide⟩, ?_⟩
  have h := getRawLineData_valid (mkModel [.intTok 3, .emptyTok, .lineEnd])
    0 mgrOpen 5 0 [.pint 3, .pempty] [] rfl rfl (by decide) rfl
  rw [h.1]
  rfl

theorem decodePV_pnest (mgr : ModelManager) :
    ∀ d, decodePV mgr (pnest d) = nestArg d := by
  intro d
  induction d with
  | zero => rfl
  | succ n ih => simp [pnest, nestArg, decodePV, decodePVs, ih]

/-- C6 (evidence): contrary to the required defensive bound, `GetArgs`
imposes no maximum recursion depth: for every depth `d` it decodes the
nested-list record of depth `d + 1` successfully to the correspondingly
deep List-of-List tree, and no "nesting too deep" condition exists anywhere
in its result type. -/
theorem getArgs_no_depth_limit (mgr : ModelManager) (d : Nat) :
    (GetArgs mgr (nestModel d) 0).1 = [nestArg d] := by
  have hlen : (nestModel d).tokens.length = (flatPVs [pnest d]).length + 1 := by
    simp [nestModel, mkModel]
  have htok : (nestModel d).tokens.drop 0 =
      flatPVs [pnest d] ++ .lineEnd :: [] := by
    simp [nestModel, mkModel]
  have hargs := GetArgsF_spec mgr ((nestModel d).tokens.length + 1)
    [pnest d] (nestModel d) 0 .lineEnd [] (Or.inr rfl) htok (by omega)
  have : (GetArgs mgr (nestModel d) 0).1 = decodePVs mgr [pnest d] := by
    simp [GetArgs, hargs]
  rw [this]
  simp [decodePVs, decodePV_pnest]

/-- Structural invariant behind the typed-label claim: for every fuel,
loader and cursor, every object argument anywhere in the decoder's output
satisfies the three-key shape. -/
theorem objArgsOkList_getArgsF (mgr : ModelManager) :
    ∀ (f : Nat) (m : IfcModel) (p : Nat),
      objArgsOkList (GetArgsF mgr f m p).1 = true := by
  intro f
  induction f using Nat.strong_induction_on with
  | _ f IH =>
    intro m p
    cases f with
    | zero => rfl
    | succ g =>
      cases hend : IsAtEnd m p with
      | true => simp [GetArgsF, hend, objArgsOkList]
      | false =>
        cases htok : tokGet m p with
        | lineEnd => simp [GetArgsF, hend, htok, objArgsOkList]
        | setEnd => simp [GetArgsF, hend, htok, objArgsOkList]
        | unknown =>
            have h1 := IH g (by omega) m (p + 1)
            simp [GetArgsF, hend, htok, h1]
        | emptyTok =>
            have h1 := IH g (by omega) m (p + 1)
            simp [GetArgsF, hend, htok, objArgsOkList, objArgsOk, h1]
        | setBegin =>
            have h1 := IH g (by omega) m (p + 1)
            have h2 := IH g (by omega) m ((GetArgsF mgr g m (p + 1)).2)
            simp [GetArgsF, hend, htok, objArgsOkList, objArgsOk, h1, h2]
        | labelTok s =>
            have h1 := IH g (by omega) m (p + 1 + 1)
            have h2 := IH g (by omega) m ((GetArgsF mgr g m (p + 1 + 1)).2)
            simp [GetArgsF, hend, htok, objArgsOkList, objArgsOk,
              objArgsOkKVs, objShapeOk, isList, GetStringArgument,
              List.lookup, h1, h2]
        | strTok s =>
            have h1 := IH g (by omega) m ((ReadValueAt m p .STRING).2)
            simp [GetArgsF, hend, htok, objArgsOkList, objArgsOk, h1]
        | enumTok s =>
            have h1 := IH g (by omega) m ((ReadValueAt m p .ENUM).2)
            simp [GetArgsF, hend, htok, objArgsOkList, objArgsOk, h1]
        | realTok d =>
            have h1 := IH g (by omega) m ((ReadValueAt m p .REAL).2)
            simp [GetArgsF, hend, htok, objArgsOkList, objArgsOk, h1]
        | intTok n =>
            have h1 := IH g (by omega) m ((ReadValueAt m p .INTEGER).2)
            simp [GetArgsF, hend, htok, objArgsOkList, objArgsOk, h1]
        | refTok r =>
            have h1 := IH g (by omega) m ((ReadValueAt m p .REF).2)
            simp [GetArgsF, hend, htok, objArgsOkList, objArgsOk, h1]

/-- C4: on every TYPED-LABEL token the decoder appends an Object whose
bindings are exactly `type` (the label token kind's numeric code),
`typecode` (the schema resolver's code for the label name, whatever it
returns), and `value` holding a List; and — by the accompanying invariant —
no object with any other key set ever occurs anywhere in any decoder
output. -/
theorem getArgs_label_object_shape (mgr : ModelManager) (f : Nat)
    (m : IfcModel) (p : Nat) (name : String)
    (hlt : p < m.tokens.length) (htok : tokGet m p = .labelTok name) :
    GetArgsF mgr (f + 1) m p =
      (.object
          [("type", .simple (.long (IfcTokenType.toLong .LABEL))),
           ("typecode",
             .simple (.uint32 (mgr.ifcTypeToTypeCode name))),
           ("value", .list (GetArgsF mgr f m (p + 1 + 1)).1)] ::
        (GetArgsF mgr f m ((GetArgsF mgr f m (p + 1 + 1)).2)).1,
       (GetArgsF mgr f m ((GetArgsF mgr f m (p + 1 + 1)).2)).2) ∧
    objArgsOkList (GetArgsF mgr (f + 1) m p).1 = true := by
  constructor
  · simp [GetArgsF, notAtEnd_of_lt hlt, htok, GetStringArgument]
  · exact objArgsOkList_getArgsF mgr (f + 1) m p

theorem getArgs_label_object_shape_witness :
    (0 < (mkModel [.labelTok "A", .setBegin, .setEnd, .lineEnd]).tokens.length ∧
      tokGet (mkModel [.labelTok "A", .setBegin, .setEnd, .lineEnd]) 0 =
        .labelTok "A") ∧
    (GetArgsF mgrOpen 4 (mkModel [.labelTok "A", .setBegin, .setEnd,
        .lineEnd]) 0 =
      (.object
          [("type", .simple (.long (IfcTokenType.toLong .LABEL))),
           ("typecode", .simple (.uint32 (mgrOpen.ifcTypeToTypeCode "A"))),
           ("value",
             .list (GetArgsF mgrOpen 3 (mkModel [.labelTok "A", .setBegin,
               .setEnd, .lineEnd]) 2).1)] ::
        (GetArgsF mgrOpen 3 (mkModel [.labelTok "A", .setBegin, .setEnd,
          .lineEnd]) ((GetArgsF mgrOpen 3 (mkModel [.labelTok "A",
          .setBegin, .setEnd, .lineEnd]) 2).2)).1,
       (GetArgsF mgrOpen 3 (mkModel [.labelTok "A", .setBegin, .setEnd,
         .lineEnd]) ((GetArgsF mgrOpen 3 (mkModel [.labelTok "A",
         .setBegin, .setEnd, .lineEnd]) 2).2)).2) ∧
      objArgsOkList (GetArgsF mgrOpen 4 (mkModel [.labelTok "A", .setBegin,
        .setEnd, .lineEnd]) 0).1 = true) := by
  refine ⟨⟨by decide, rfl⟩, ?_⟩
  exact getArgs_label_object_shape mgrOpen 3
    (mkModel [.labelTok "A", .setBegin, .setEnd, .lineEnd]) 0 "A"
    (by decide) rfl

/-- C9 (amended): the tree decoder and the debug string decoder consume
exactly the same tokens — for every fuel, loader, flag assignment and
cursor their final cursor positions coincide — although their outputs need
not agree on structure. -/
theorem decoders_consume_same_tokens (f : Nat) (mgr : ModelManager)
    (m : IfcModel) (inObject inList : Bool) (p : Nat) :
    (GetArgsStrF f m inObject inList p).2 = (GetArgsF mgr f m p).2 := by
  induction f using Nat.strong_induction_on generalizing inObject inList p with
  | _ f IH =>
    cases f with
    | zero => rfl
    | succ g =>
      cases hend : IsAtEnd m p with
      | true => simp [GetArgsF, GetArgsStrF, hend]
      | false =>
        cases htok : tokGet m p with
        | lineEnd => simp [GetArgsF, GetArgsStrF, hend, htok]
        | setEnd => simp [GetArgsF, GetArgsStrF, hend, htok]
        | unknown =>
            have h1 := IH g (by omega) inObject inList (p + 1)
            simp [GetArgsF, GetArgsStrF, hend, htok, h1]
        | emptyTok =>
            have h1 := IH g (by omega) inObject inList (p + 1)
            simp [GetArgsF, GetArgsStrF, hend, htok, h1]
        | setBegin =>
            have h1 := IH g (by omega) false true (p + 1)
            have h2 := IH g (by omega) inObject inList
              ((GetArgsF mgr g m (p + 1)).2)
            simp [GetArgsF, GetArgsStrF, hend, htok, h1, h2]
        | labelTok s =>
            have h1 := IH g (by omega) true false (p + 1 + 1)
            have h2 := IH g (by omega) inObject inList
              ((GetArgsF mgr g m (p + 1 + 1)).2)
            simp [GetArgsF, GetArgsStrF, hend, htok, GetStringArgument,
              h1, h2]
        | strTok s =>
            have h1 := IH g (by omega) inObject inList (p + 1)
            simp [GetArgsF, GetArgsStrF, hend, htok, ReadValueAt,
              ReadValueStr, GetDecodedStringArgument, h1]
        | enumTok s =>
            have h1 := IH g (by omega) inObject inList (p + 1)
            simp [GetArgsF, GetArgsStrF, hend, htok, ReadValueAt_enum_snd,
              ReadValueStr, GetStringArgument, h1]
        | realTok d =>
            have h1 := IH g (by omega) inObject inList (p + 1)
            simp [GetArgsF, GetArgsStrF, hend, htok, ReadValueAt,
              ReadValueStr, GetDoubleArgument, h1]
        | intTok n =>
            have h1 := IH g (by omega) inObject inList (p + 1)
            simp [GetArgsF, GetArgsStrF, hend, htok, ReadValueAt,
              ReadValueStr, GetIntArgument, h1]
        | refTok r =>
            have h1 := IH g (by omega) inObject inList (p + 1)
            simp [GetArgsF, GetArgsStrF, hend, htok, ReadValueAt,
              ReadValueStr, GetRefArgument, h1]

theorem getRawLineData_invalid_witness :
    (mgrClosed.isModelOpen 0 = false ∨ mInvalid.validID 1 = false ∨
      mInvalid.lineTypeOf 1 = 0) ∧
    ((GetRawLineData mInvalid 0 mgrClosed 1 0).1 = IfcRawLine.empty ∧
      (GetRawLineData mInvalid 0 mgrClosed 1 0).1.arguments =
        .simple .monostate ∧
      isList (GetRawLineData mInvalid 0 mgrClosed 1 0).1.arguments = false ∧
      (GetRawLineData mInvalid 0 mgrClosed 1 0).1.type = none) :=
  ⟨Or.inl rfl, getRawLineData_invalid mInvalid 0 mgrClosed 1 0 (Or.inl rfl)⟩

theorem GetArgsF_atEnd (mgr : ModelManager) (f : Nat) (m : IfcModel)
    (p : Nat) (h : m.tokens.length ≤ p) : GetArgsF mgr f m p = ([], p) := by
  cases f with
  | zero => rfl
  | succ g => simp [GetArgsF, IsAtEnd, h]

theorem decodePVs_append (mgr : ModelManager) (xs ys : List PVal) :
    decodePVs mgr (xs ++ ys) = decodePVs mgr xs ++ decodePVs mgr ys := by
  induction xs with
  | nil => simp [decodePVs]
  | cons a t ih => simp [decodePVs, ih]

theorem decodePV_toPVal (mgr : ModelManager) :
    ∀ t : OpenTail, decodePV mgr (toPVal t) = decodeOpen mgr t := by
  intro t
  induction t with
  | last xs => simp [toPVal, decodePV, decodeOpen]
  | more xs t' ih =>
      simp [toPVal, decodePV, decodeOpen, decodePVs_append, decodePVs, ih]

/-- Decoder behaviour on a stream that simply ends: after the well-formed
arguments `args`, the tape carries either nothing (`ot = none`) or an
unterminated open tail.  Every level of the decoder runs into end-of-stream,
returns normally with everything it accumulated, and leaves the cursor at
the end of the tape — no failure of any kind is raised. -/
theorem GetArgsF_trunc (mgr : ModelManager) :
    ∀ (f : Nat) (args : List PVal) (ot : Option OpenTail) (m : IfcModel)
      (p : Nat),
      p ≤ m.tokens.length →
      m.tokens.drop p = flatPVs args ++ openEnding ot →
      (flatPVs args ++ openEnding ot).length + 1 ≤ f →
      GetArgsF mgr f m p =
        (decodePVs mgr args ++ openDecoded mgr ot, m.tokens.length) := by
  intro f
  induction f using Nat.strong_induction_on with
  | _ f IH =>
    intro args ot m p hp hdrop hfuel
    obtain ⟨g, rfl⟩ : ∃ g, f = g + 1 := ⟨f - 1, by omega⟩
    cases args with
    | nil =>
      simp only [flatPVs, List.nil_append] at hdrop
      cases ot with
      | none =>
          simp only [openEnding] at hdrop
          have hle : m.tokens.length ≤ p := by
            have hl := congrArg List.length hdrop
            simp only [List.length_drop, List.length_nil] at hl
            omega
          have hpeq : p = m.tokens.length := by omega
          rw [GetArgsF_atEnd mgr (g + 1) m p hle, hpeq]
          simp [decodePVs, openDecoded]
      | some t =>
        cases t with
        | last xs =>
            simp only [openEnding, flatOpen] at hdrop
            obtain ⟨hlt, htok, hd1⟩ := tokGet_of_drop hdrop
            simp only [openEnding, flatOpen, flatPVs, List.nil_append,
              List.length_cons] at hfuel
            have hinner := IH g (by omega) xs none m (p + 1) (by omega)
              (by simpa [openEnding] using hd1)
              (by simp [openEnding]; omega)
            have hrest := GetArgsF_atEnd mgr g m m.tokens.length
              (Nat.le_refl _)
            have hstep : GetArgsF mgr (g + 1) m p =
                (.list (decodePVs mgr xs ++ openDecoded mgr none) :: [],
                  m.tokens.length) := by
              simp [GetArgsF, notAtEnd_of_lt hlt, htok, hinner, hrest]
            rw [hstep]
            simp [decodePVs, openDecoded, decodeOpen]
        | more xs t' =>
            simp only [openEnding, flatOpen] at hdrop
            obtain ⟨hlt, htok, hd1⟩ := tokGet_of_drop hdrop
            simp only [openEnding, flatOpen, flatPVs, List.nil_append,
              List.length_cons, List.length_append] at hfuel
            have hinner := IH g (by omega) xs (some t') m (p + 1) (by omega)
              (by simpa [openEnding] using hd1)
              (by simp [openEnding]; omega)
            have hrest := GetArgsF_atEnd mgr g m m.tokens.length
              (Nat.le_refl _)
            have hstep : GetArgsF mgr (g + 1) m p =
                (.list (decodePVs mgr xs ++ openDecoded mgr (some t')) :: [],
                  m.tokens.length) := by
              simp [GetArgsF, notAtEnd_of_lt hlt, htok, hinner, hrest]
            rw [hstep]
            simp [decodePVs, openDecoded, decodeOpen]
    | cons a rest =>
      cases a with
      | pempty =>
          have hdrop' : m.tokens.drop p =
              .emptyTok :: (flatPVs rest ++ openEnding ot) := by
            simpa [flatPVs, flatPV] using hdrop
          obtain ⟨hlt, htok, hd1⟩ := tokGet_of_drop hdrop'
          have hlen : (flatPVs (PVal.pempty :: rest) ++ openEnding ot).length =
              (flatPVs rest ++ openEnding ot).length + 1 := by
            simp [flatPVs, flatPV]
          rw [hlen] at hfuel
          have hrest := IH g (by omega) rest ot m (p + 1) (by omega) hd1
            (by omega)
          have hstep : GetArgsF mgr (g + 1) m p =
              (.simple .monostate ::
                  (decodePVs mgr rest ++ openDecoded mgr ot),
                m.tokens.length) := by
            simp [GetArgsF, notAtEnd_of_lt hlt, htok, hrest]
          rw [hstep]
          simp [decodePVs, decodePV]
      | pstr s =>
          have hdrop' : m.tokens.drop p =
              .strTok s :: (flatPVs rest ++ openEnding ot) := by
            simpa [flatPVs, flatPV] using hdrop
          obtain ⟨hlt, htok, hd1⟩ := tokGet_of_drop hdrop'
          have hlen : (flatPVs (PVal.pstr s :: rest) ++ openEnding ot).length =
              (flatPVs rest ++ openEnding ot).length + 1 := by
            simp [flatPVs, flatPV]
          rw [hlen] at hfuel
          have hrest := IH g (by omega) rest ot m (p + 1) (by omega) hd1
            (by omega)
          have hstep : GetArgsF mgr (g + 1) m p =
              (.simple (.str s) ::
                  (decodePVs mgr rest ++ openDecoded mgr ot),
                m.tokens.length) := by
            simp [GetArgsF, notAtEnd_of_lt hlt, htok, ReadValueAt_string htok,
              hrest]
          rw [hstep]
          simp [decodePVs, decodePV]
      | penum s =>
          have hdrop' : m.tokens.drop p =
              .enumTok s :: (flatPVs rest ++ openEnding ot) := by
            simpa [flatPVs, flatPV] using hdrop
          obtain ⟨hlt, htok, hd1⟩ := tokGet_of_drop hdrop'
          have hlen : (flatPVs (PVal.penum s :: rest) ++ openEnding ot).length =
              (flatPVs rest ++ openEnding ot).length + 1 := by
            simp [flatPVs, flatPV]
          rw [hlen] at hfuel
          have hrest := IH g (by omega) rest ot m (p + 1) (by omega) hd1
            (by omega)
          have hstep : GetArgsF mgr (g + 1) m p =
              (.simple (if s = "T" then .bool true
                else if s = "F" then .bool false
                else if s = "U" then .monostate
                else .str s) ::
                  (decodePVs mgr rest ++ openDecoded mgr ot),
                m.tokens.length) := by
            simp [GetArgsF, notAtEnd_of_lt hlt, htok, ReadValueAt_enum htok,
              hrest]
          rw [hstep]
          simp [decodePVs, decodePV]
      | preal d =>
          have hdrop' : m.tokens.drop p =
              .realTok d :: (flatPVs rest ++ openEnding ot) := by
            simpa [flatPVs, flatPV] using hdrop
          obtain ⟨hlt, htok, hd1⟩ := tokGet_of_drop hdrop'
          have hlen : (flatPVs (PVal.preal d :: rest) ++ openEnding ot).length =
              (flatPVs rest ++ openEnding ot).length + 1 := by
            simp [flatPVs, flatPV]
          rw [hlen] at hfuel
          have hrest := IH g (by omega) rest ot m (p + 1) (by omega) hd1
            (by omega)
          have hstep : GetArgsF mgr (g + 1) m p =
              (.simple (.double d) ::
                  (decodePVs mgr rest ++ openDecoded mgr ot),
                m.tokens.length) := by
            simp [GetArgsF, notAtEnd_of_lt hlt, htok, ReadValueAt_real htok,
              hrest]
          rw [hstep]
          simp [decodePVs, decodePV]
      | pint n =>
          have hdrop' : m.tokens.drop p =
              .intTok n :: (flatPVs rest ++ openEnding ot) := by
            simpa [flatPVs, flatPV] using hdrop
          obtain ⟨hlt, htok, hd1⟩ := tokGet_of_drop hdrop'
          have hlen : (flatPVs (PVal.pint n :: rest) ++ openEnding ot).length =
              (flatPVs rest ++ openEnding ot).length + 1 := by
            simp [flatPVs, flatPV]
          rw [hlen] at hfuel
          have hrest := IH g (by omega) rest ot m (p + 1) (by omega) hd1
            (by omega)
          have hstep : GetArgsF mgr (g + 1) m p =
              (.simple (.long n) ::
                  (decodePVs mgr rest ++ openDecoded mgr ot),
                m.tokens.length) := by
            simp [GetArgsF, notAtEnd_of_lt hlt, htok, ReadValueAt_int htok,
              hrest]
          rw [hstep]
          simp [decodePVs, decodePV]
      | pref r =>
          have hdrop' : m.tokens.drop p =
              .refTok r :: (flatPVs rest ++ openEnding ot) := by
            simpa [flatPVs, flatPV] using hdrop
          obtain ⟨hlt, htok, hd1⟩ := tokGet_of_drop hdrop'
          have hlen : (flatPVs (PVal.pref r :: rest) ++ openEnding ot).length =
              (flatPVs rest ++ openEnding ot).length + 1 := by
            simp [flatPVs, flatPV]
          rw [hlen] at hfuel
          have hrest := IH g (by omega) rest ot m (p + 1) (by omega) hd1
            (by omega)
          have hstep : GetArgsF mgr (g + 1) m p =
              (.simple (.uint32 r) ::
                  (decodePVs mgr rest ++ openDecoded mgr ot),
                m.tokens.length) := by
            simp [GetArgsF, notAtEnd_of_lt hlt, htok, ReadValueAt_ref htok,
              hrest]
          rw [hstep]
          simp [decodePVs, decodePV]
      | plist xs =>
          have hdrop' : m.tokens.drop p =
              .setBegin :: (flatPVs xs ++
                .setEnd :: (flatPVs rest ++ openEnding ot)) := by
            simpa [flatPVs, flatPV, List.cons_append, List.append_assoc]
              using hdrop
          obtain ⟨hlt, htok, hd1⟩ := tokGet_of_drop hdrop'
          have hlen : (flatPVs (PVal.plist xs :: rest) ++ openEnding ot).length =
              (flatPVs xs).length +
                (flatPVs rest ++ openEnding ot).length + 2 := by
            simp [flatPVs, flatPV]
            omega
          rw [hlen] at hfuel
          have hinner := GetArgsF_spec mgr g xs m (p + 1) .setEnd
            (flatPVs rest ++ openEnding ot) (Or.inl rfl) hd1 (by omega)
          have hd2 : m.tokens.drop (p + 1 + (flatPVs xs).length + 1) =
              flatPVs rest ++ openEnding ot := by
            have e : p + 1 + (flatPVs xs).length + 1 =
                (p + 1) + ((flatPVs xs).length + 1) := by omega
            rw [e, drop_add, hd1, drop_append_cons]
          have hp2 : p + 1 + (flatPVs xs).length + 1 ≤ m.tokens.length := by
            have hl2 := congrArg List.length hdrop'
            simp only [List.length_drop, List.length_cons,
              List.length_append] at hl2
            omega
          have hrest := IH g (by omega) rest ot m
            (p + 1 + (flatPVs xs).length + 1) hp2 hd2 (by omega)
          have hstep : GetArgsF mgr (g + 1) m p =
              (.list (decodePVs mgr xs) ::
                  (decodePVs mgr rest ++ openDecoded mgr ot),
                m.tokens.length) := by
            simp [GetArgsF, notAtEnd_of_lt hlt, htok, hinner, hrest]
          rw [hstep]
          simp [decodePVs, decodePV]
      | plabel name xs =>
          have hdrop' : m.tokens.drop p =
              .labelTok name :: .setBegin :: (flatPVs xs ++
                .setEnd :: (flatPVs rest ++ openEnding ot)) := by
            simpa [flatPVs, flatPV, List.cons_append, List.append_assoc]
              using hdrop
          obtain ⟨hlt, htok, hd1⟩ := tokGet_of_drop hdrop'
          obtain ⟨-, -, hd2⟩ := tokGet_of_drop hd1
          have hstr : GetStringArgument m p = (name, p + 1) := by
            simp [GetStringArgument, htok]
          have hlen : (flatPVs (PVal.plabel name xs :: rest) ++
              openEnding ot).length =
              (flatPVs xs).length +
                (flatPVs rest ++ openEnding ot).length + 3 := by
            simp [flatPVs, flatPV]
            omega
          rw [hlen] at hfuel
          have hinner := GetArgsF_spec mgr g xs m (p + 1 + 1) .setEnd
            (flatPVs rest ++ openEnding ot) (Or.inl rfl) hd2 (by omega)
          have hd3 : m.tokens.drop (p + 1 + 1 + (flatPVs xs).length + 1) =
              flatPVs rest ++ openEnding ot := by
            have e : p + 1 + 1 + (flatPVs xs).length + 1 =
                (p + 1 + 1) + ((flatPVs xs).length + 1) := by omega
            rw [e, drop_add, hd2, drop_append_cons]
          have hp2 : p + 1 + 1 + (flatPVs xs).length + 1 ≤
              m.tokens.length := by
            have hl2 := congrArg List.length hdrop'
            simp only [List.length_drop, List.length_cons,
              List.length_append] at hl2
            omega
          have hrest := IH g (by omega) rest ot m
            (p + 1 + 1 + (flatPVs xs).length + 1) hp2 hd3 (by omega)
          have hstep : GetArgsF mgr (g + 1) m p =
              (.object
                  [("type", .simple (.long (IfcTokenType.toLong .LABEL))),
                   ("typecode",
                     .simple (.uint32 (mgr.ifcTypeToTypeCode name))),
                   ("value", .list (decodePVs mgr xs))] ::
                  (decodePVs mgr rest ++ openDecoded mgr ot),
                m.tokens.length) := by
            simp [GetArgsF, notAtEnd_of_lt hlt, htok, hstr, hinner, hrest]
          rw [hstep]
          simp [decodePVs, decodePV]

/-- C7 (amended): for every token stream containing a LIST-BEGIN with no
matching terminator before the stream ends — arbitrary well-formed
arguments before it, arbitrary well-formed content and arbitrarily many
further unmatched LIST-BEGINs after it — the decode call does not fail: it
returns normally with the arguments accumulated so far (each unmatched
LIST-BEGIN yielding the List built up to the point the stream ran out),
consumes the whole remaining stream, and its output is identical to the
decode of the properly terminated stream, so the truncation is silent and
unobservable in the result. -/
theorem getArgs_unterminated_amended (mgr : ModelManager) (m m' : IfcModel)
    (p p' : Nat) (args : List PVal) (t : OpenTail) (suffix : List IfcToken)
    (htrunc : m.tokens.drop p = flatPVs args ++ flatOpen t)
    (hterm : m'.tokens.drop p' =
      flatPVs (args ++ [toPVal t]) ++ .lineEnd :: suffix) :
    (GetArgs mgr m p).1 = decodePVs mgr args ++ [decodeOpen mgr t] ∧
    (GetArgs mgr m p).2 = m.tokens.length ∧
    (GetArgs mgr m p).1 = (GetArgs mgr m' p').1 := by
  have hne : flatOpen t ≠ [] := by cases t <;> simp [flatOpen]
  have hplt : p < m.tokens.length := by
    by_contra hc
    push_neg at hc
    have hnil : m.tokens.drop p = [] := List.drop_eq_nil_of_le hc
    rw [hnil] at htrunc
    exact hne (List.append_eq_nil.mp htrunc.symm).2
  have hlen1 : (flatPVs args ++ flatOpen t).length + 1 ≤
      m.tokens.length + 1 := by
    have hl := congrArg List.length htrunc
    simp only [List.length_drop] at hl
    omega
  have htr := GetArgsF_trunc mgr (m.tokens.length + 1) args (some t) m p
    (by omega) (by simpa [openEnding] using htrunc)
    (by simpa [openEnding] using hlen1)
  have hlen2 : (flatPVs (args ++ [toPVal t])).length + 1 ≤
      m'.tokens.length + 1 := by
    have hl := congrArg List.length hterm
    simp only [List.length_drop, List.length_append, List.length_cons] at hl
    omega
  have hsp := GetArgsF_spec mgr (m'.tokens.length + 1) (args ++ [toPVal t])
    m' p' .lineEnd suffix (Or.inr rfl) hterm hlen2
  refine ⟨?_, ?_, ?_⟩
  · simp [GetArgs, htr, openDecoded]
  · simp [GetArgs, htr]
  · simp [GetArgs, htr, hsp, openDecoded, decodePVs_append, decodePVs,
      decodePV_toPVal]

theorem getArgs_unterminated_amended_witness :
    (mTrunc.tokens.drop 0 =
        flatPVs [] ++ flatOpen (OpenTail.last [.pint 1]) ∧
      mTermd.tokens.drop 0 =
        flatPVs ([] ++ [toPVal (OpenTail.last [.pint 1])]) ++
          .lineEnd :: []) ∧
    ((GetArgs mgrOpen mTrunc 0).1 =
        decodePVs mgrOpen [] ++ [decodeOpen mgrOpen (OpenTail.last [.pint 1])] ∧
      (GetArgs mgrOpen mTrunc 0).2 = mTrunc.tokens.length ∧
      (GetArgs mgrOpen mTrunc 0).1 = (GetArgs mgrOpen mTermd 0).1) :=
  ⟨⟨rfl, rfl⟩,
    getArgs_unterminated_amended mgrOpen mTrunc mTermd 0 0 []
      (OpenTail.last [.pint 1]) [] rfl rfl⟩
